import Mathlib

/-!
Verification of `topopy/network.py` (class `Network`).

The Python source works over an implicit directed acyclic flow graph encoded
as two parallel, topologically sorted arrays `_ix` (givers) and `_ixc`
(receivers).  This file gives a shallow embedding of the class: numpy arrays
of per-cell values become functions `Nat → ℚ` updated with `Function.update`,
parallel per-edge arrays become `List`s, and Python attribute errors are
made explicit with `Except`.  Floating point values are modelled by exact
rationals; the two genuinely external numeric operations used by the class
(`np.sqrt` inside the distance computation and the float power `a ** theta`
inside the chi computation) are carried as explicit function parameters,
since only their sign behaviour matters for the stated properties.
-/

/-- Python exceptions that the embedded methods can raise. -/
inductive PyErr where
  | attributeError : PyErr
  | valueError : PyErr
  deriving DecidableEq, Repr

/-- Boolean-mask fancy indexing `arr[I]` of numpy: keep the entries of `l`
whose corresponding flag in `mask` is `true`. -/
def maskSelect {α : Type} : List α → List Bool → List α
  | [], _ => []
  | _, [] => []
  | a :: t, b :: bs => if b then a :: maskSelect t bs else maskSelect t bs

/-- External inputs handed to `Network.__init__`: the `dem` and `flow`
objects and the raster geometry.  The classes `DEM`, `Flow` and `PRaster`
are not part of the sources under verification, so their accessors are
modelled from the spec: `ix`/`ixc` are the topologically sorted giver and
receiver arrays of the full flow graph (`flow._ix`, `flow._ixc`), `fac` is
the per-cell flow accumulation, `dem` the per-cell elevation, and `cellXY`
is the raster (row, col) ↦ (x, y) conversion `cell_2_xy`.

Modelled from the spec: `sqrtQ` stands for the external `np.sqrt` and
`qpow` for the external float power `a ** t`; both are opaque numeric
routines of the host library, kept as parameters of the embedding. -/
structure FlowInput where
  nrows : Nat
  ncols : Nat
  ncells : Nat
  cellsize : ℚ
  ix : List Nat
  ixc : List Nat
  fac : Nat → ℚ
  dem : Nat → ℚ
  cellXY : Nat × Nat → ℚ × ℚ
  sqrtQ : ℚ → ℚ
  qpow : ℚ → ℚ → ℚ

/-- Modelled from the spec: `PRaster.ind_2_cell`, the linear index to
(row, col) conversion of a row-major raster with `ncols` columns. -/
def ind2cell (ncols i : Nat) : Nat × Nat := (i / ncols, i % ncols)

/-- Modelled from the spec: `PRaster.cell_2_ind`, the (row, col) to linear
index conversion of a row-major raster with `ncols` columns. -/
def cell2ind (ncols : Nat) (rc : Nat × Nat) : Nat := rc.1 * ncols + rc.2

/-- The giver-receiver planar distance `d_gr` computed in the constructor
loop: `np.sqrt((gx - rx)**2 + (gy - ry)**2)` after converting both linear
indices to map coordinates. -/
def dgrOf (f : FlowInput) (g r : Nat) : ℚ :=
  let gxy := f.cellXY (ind2cell f.ncols g)
  let rxy := f.cellXY (ind2cell f.ncols r)
  f.sqrtQ ((gxy.1 - rxy.1) ^ 2 + (gxy.2 - rxy.2) ^ 2)

/-- The reverse accumulation pass shared by the constructor's distance loop
and by `calculate_chi`: a scratch array `di`/`chi` of per-cell values starts
at zero and the edges are processed from the last position to the first,
each step setting the giver's cell to the receiver's cell plus the edge
increment `w n`.  `passFrom ix ixc w d` is the scratch array after the `d`
highest positions (`len-1` down to `len-d`) have been processed; the full
pass is `passFrom ix ixc w ix.length`. -/
def passFrom (ix ixc : List Nat) (w : Nat → ℚ) : Nat → (Nat → ℚ)
  | 0 => fun _ => 0
  | d + 1 =>
    let s := passFrom ix ixc w d
    let n := ix.length - (d + 1)
    Function.update s (ix.getD n 0) (s (ixc.getD n 0) + w n)

/-- The body of `calculate_chi`: reverse pass with increment
`a0 * dd[n] / ax[n] ** thetaref`, then read off at the giver positions. -/
def chiListOf (ix ixc : List Nat) (dd ax : List ℚ) (qpow : ℚ → ℚ → ℚ)
    (thetaref a0 : ℚ) : List ℚ :=
  let chi := passFrom ix ixc
    (fun n => a0 * dd.getD n 0 / qpow (ax.getD n 0) thetaref) ix.length
  ix.map chi

/-- The `Network` object as left by `__init__`.  Every field is an
attribute assigned by the constructor; `_chcells` is `none` because no
method of the class ever assigns that attribute, so reading it raises
`AttributeError` (modelled by `Except` in the readers). -/
structure Network where
  _ncells : Nat
  _nrows : Nat
  _ncols : Nat
  _cellsize : ℚ
  _ix : List Nat
  _ixc : List Nat
  _ax : List ℚ
  _zx : List ℚ
  _dd : List ℚ
  _dx : List ℚ
  _chi : List ℚ
  _ksn : List ℚ
  _chcells : Option (List Nat)
  cellXY : Nat × Nat → ℚ × ℚ
  sqrtQ : ℚ → ℚ
  qpow : ℚ → ℚ → ℚ

/-- `Network.__init__`: default the threshold to 0.5% of the cell count when
zero, mask the flow edges by `fac > threshold` on the giver, derive the
per-edge area, elevation, giver-receiver distance and distance-to-outlet
arrays, and run the initial chi pass with `a0 = 1`. -/
def mkNetwork (f : FlowInput) (threshold thetaref : ℚ) : Network :=
  let threshold := if threshold = 0 then (f.ncells : ℚ) * (5 / 1000) else threshold
  let w : Nat → Bool := fun c => decide (threshold < f.fac c)
  let I : List Bool := f.ix.map w
  let ix := maskSelect f.ix I
  let ixc := maskSelect f.ixc I
  let ax := ix.map (fun c => f.fac c * f.cellsize ^ 2)
  let zx := ix.map f.dem
  let dd := (ix.zip ixc).map (fun p => dgrOf f p.1 p.2)
  let di := passFrom ix ixc (fun n => dd.getD n 0) ix.length
  { _ncells := f.ncells
    _nrows := f.nrows
    _ncols := f.ncols
    _cellsize := f.cellsize
    _ix := ix
    _ixc := ixc
    _ax := ax
    _zx := zx
    _dd := dd
    _dx := ix.map di
    _chi := chiListOf ix ixc dd ax f.qpow thetaref 1
    _ksn := List.replicate ix.length 0
    _chcells := none
    cellXY := f.cellXY
    sqrtQ := f.sqrtQ
    qpow := f.qpow }

/-- `Network.calculate_chi(thetaref, a0)`: recompute the chi array for the
given concavity and reference area. -/
def Network.calculate_chi (net : Network) (thetaref a0 : ℚ) : List ℚ :=
  chiListOf net._ix net._ixc net._dd net._ax net.qpow thetaref a0

/-! ### The topological ordering invariant inherited from the flow graph -/

/-- The ordering invariant of the `(ix, ixc)` edge arrays: whenever the
receiver of edge `n` reappears as the giver of edge `m`, then `n < m`
(edges of a cell's incoming tributaries occur before the cell's own
outgoing edge), and no edge is a self loop.  Stated as a `Pairwise`
property so that it transfers to any sub-selection of the edge list. -/
def topoSorted (ix ixc : List Nat) : Prop :=
  List.Pairwise (fun e₁ e₂ => e₂.2 ≠ e₁.1) (ix.zip ixc) ∧
    ∀ p ∈ ix.zip ixc, p.1 ≠ p.2

instance (ix ixc : List Nat) : Decidable (topoSorted ix ixc) := by
  unfold topoSorted; infer_instance

/-- zipping the two projections of a pair list gives back the list. -/
theorem zip_fst_snd {α β : Type} (l : List (α × β)) :
    (l.map Prod.fst).zip (l.map Prod.snd) = l := by
  induction l with
  | nil => rfl
  | cons a t ih => simpa using ih

/-- Index form of the ordering invariant: a receiver that reappears as a
giver does so strictly later in the arrays. -/
theorem topoSorted.pos_lt {ix ixc : List Nat} (h : topoSorted ix ixc)
    (hlen : ix.length = ixc.length) {n m : Nat}
    (hn : n < ix.length) (hm : m < ix.length)
    (he : ixc.getD n 0 = ix.getD m 0) : n < m := by
  have hzl : (ix.zip ixc).length = ix.length := by
    simp [List.length_zip, hlen]
  have hn' : n < ixc.length := hlen ▸ hn
  rw [List.getD_eq_getElem ixc 0 hn', List.getD_eq_getElem ix 0 hm] at he
  by_contra hnm
  push_neg at hnm
  rcases Nat.lt_or_ge m n with hlt | hge
  · have hp := List.pairwise_iff_getElem.mp h.1 m n (hzl ▸ hm) (hzl ▸ hn) hlt
    rw [List.getElem_zip, List.getElem_zip] at hp
    exact hp he
  · have hmn : m = n := Nat.le_antisymm hnm hge
    subst hmn
    have hmem : (ix[m], ixc[m]) ∈ ix.zip ixc := by
      have := List.getElem_mem (show m < (ix.zip ixc).length from hzl ▸ hm)
      rwa [List.getElem_zip] at this
    exact h.2 _ hmem (he ▸ rfl)

/-! ### Properties of the reverse accumulation pass -/

/-- One step of the reverse pass, unfolded. -/
theorem passFrom_succ (ix ixc : List Nat) (w : Nat → ℚ) (d : Nat) :
    passFrom ix ixc w (d + 1)
      = Function.update (passFrom ix ixc w d) (ix.getD (ix.length - (d + 1)) 0)
          (passFrom ix ixc w d (ixc.getD (ix.length - (d + 1)) 0)
            + w (ix.length - (d + 1))) := rfl

/-- Cells that are not the giver of any processed edge still hold zero. -/
theorem passFrom_untouched (ix ixc : List Nat) (w : Nat → ℚ) (d : Nat) (c : Nat)
    (hd : d ≤ ix.length)
    (hc : ∀ j, ix.length - d ≤ j → j < ix.length → ix.getD j 0 ≠ c) :
    passFrom ix ixc w d c = 0 := by
  induction d with
  | zero => rfl
  | succ d ih =>
    have hd' : d ≤ ix.length := Nat.le_of_succ_le hd
    have hj : ix.length - (d + 1) < ix.length := by omega
    have hne : c ≠ ix.getD (ix.length - (d + 1)) 0 :=
      fun hcc => hc _ (Nat.le_refl _) hj hcc.symm
    rw [passFrom_succ, Function.update_noteq hne]
    exact ih hd' (fun j h1 h2 => hc j (by omega) h2)

/-- The value of the scratch array at the giver of edge `n`, once that edge
has been processed: the receiver's value just before edge `n` was
processed, plus the edge increment. -/
theorem passFrom_at (ix ixc : List Nat) (w : Nat → ℚ) {d n : Nat}
    (hnodup : ix.Nodup) (hn : n < ix.length)
    (hd1 : ix.length - n ≤ d) (hd2 : d ≤ ix.length) :
    passFrom ix ixc w d (ix.getD n 0)
      = passFrom ix ixc w (ix.length - 1 - n) (ixc.getD n 0) + w n := by
  induction d with
  | zero => omega
  | succ d ih =>
    by_cases hdn : d + 1 = ix.length - n
    · have hjn : ix.length - (d + 1) = n := by omega
      have hde : d = ix.length - 1 - n := by omega
      rw [passFrom_succ, hjn, Function.update_same, hde]
    · have hd1' : ix.length - n ≤ d := by omega
      have hjlt : ix.length - (d + 1) < ix.length := by omega
      have hjne : ix.length - (d + 1) ≠ n := by omega
      have hne : ix.getD n 0 ≠ ix.getD (ix.length - (d + 1)) 0 := by
        rw [List.getD_eq_getElem ix 0 hjlt, List.getD_eq_getElem ix 0 hn]
        intro hh
        exact hjne ((hnodup.getElem_inj_iff.mp hh).symm)
      rw [passFrom_succ, Function.update_noteq hne]
      exact ih hd1' (Nat.le_of_succ_le hd2)

/-- A cell not written between two stages of the pass keeps its value. -/
theorem passFrom_stable (ix ixc : List Nat) (w : Nat → ℚ) {d₁ d₂ : Nat} (c : Nat)
    (h12 : d₁ ≤ d₂) (hd2 : d₂ ≤ ix.length)
    (hc : ∀ j, ix.length - d₂ ≤ j → j < ix.length - d₁ → ix.getD j 0 ≠ c) :
    passFrom ix ixc w d₂ c = passFrom ix ixc w d₁ c := by
  induction d₂ with
  | zero =>
    have hd0 : d₁ = 0 := Nat.le_zero.mp h12
    rw [hd0]
  | succ d ih =>
    by_cases hdd : d₁ = d + 1
    · rw [hdd]
    · have hjlt : ix.length - (d + 1) < ix.length - d₁ := by omega
      have hne : c ≠ ix.getD (ix.length - (d + 1)) 0 :=
        fun hcc => hc _ (Nat.le_refl _) hjlt hcc.symm
      rw [passFrom_succ, Function.update_noteq hne]
      exact ih (by omega) (by omega) (fun j h1 h2 => hc j (by omega) h2)

/-- Key recurrence of the reverse pass: if the receiver of edge `n`
reappears as the giver of edge `m`, then the final value at the giver of
edge `n` is the final value at the giver of edge `m` plus the increment of
edge `n`. -/
theorem passFrom_edge (ix ixc : List Nat) (w : Nat → ℚ)
    (hlen : ix.length = ixc.length) (htopo : topoSorted ix ixc)
    (hnodup : ix.Nodup) {n m : Nat}
    (hn : n < ix.length) (hm : m < ix.length)
    (he : ixc.getD n 0 = ix.getD m 0) :
    passFrom ix ixc w ix.length (ix.getD n 0)
      = passFrom ix ixc w ix.length (ix.getD m 0) + w n := by
  have hnm : n < m := htopo.pos_lt hlen hn hm he
  have h1 : passFrom ix ixc w ix.length (ix.getD n 0)
      = passFrom ix ixc w (ix.length - 1 - n) (ixc.getD n 0) + w n :=
    passFrom_at ix ixc w hnodup hn (by omega) (Nat.le_refl _)
  have h2 : passFrom ix ixc w ix.length (ix.getD m 0)
      = passFrom ix ixc w (ix.length - 1 - n) (ix.getD m 0) := by
    apply passFrom_stable ix ixc w _ (by omega) (Nat.le_refl _)
    intro j _ hj2
    have hjm : j ≠ m := by omega
    have hjlt : j < ix.length := by omega
    rw [List.getD_eq_getElem ix 0 hjlt, List.getD_eq_getElem ix 0 hm]
    simpa [hnodup.getElem_inj_iff] using hjm
  rw [h1, he, h2]

/-! ### The edge sub-selection performed by the constructor -/

/-- The two boolean-masked arrays of the constructor, described as a single
filtered pair list: `_ix` and `_ixc` are the two projections of the flow
edges whose giver passes the accumulation mask. -/
theorem maskSelect_pair_eq_filter {α β : Type} (l1 : List α) (l2 : List β)
    (w : α → Bool) (hlen : l1.length = l2.length) :
    maskSelect l1 (l1.map w) = ((l1.zip l2).filter (fun p => w p.1)).map Prod.fst
    ∧ maskSelect l2 (l1.map w) = ((l1.zip l2).filter (fun p => w p.1)).map Prod.snd := by
  induction l1 generalizing l2 with
  | nil =>
    cases l2 with
    | nil => exact ⟨rfl, rfl⟩
    | cons b t2 => simp at hlen
  | cons a t1 ih =>
    cases l2 with
    | nil => simp at hlen
    | cons b t2 =>
      have hlen' : t1.length = t2.length := by simpa using hlen
      obtain ⟨ih1, ih2⟩ := ih t2 hlen'
      by_cases hw : w a
      · constructor
        · simp [maskSelect, List.zip_cons_cons, List.filter_cons, hw, ih1]
        · simp [maskSelect, List.zip_cons_cons, List.filter_cons, hw, ih2]
      · constructor
        · simp [maskSelect, List.zip_cons_cons, List.filter_cons, hw, ih1]
        · simp [maskSelect, List.zip_cons_cons, List.filter_cons, hw, ih2]

/-- The effective accumulation threshold of the constructor: 0.5% of the
total cell count when the caller passes zero, else the caller's value. -/
def effectiveThreshold (f : FlowInput) (threshold : ℚ) : ℚ :=
  if threshold = 0 then (f.ncells : ℚ) * (5 / 1000) else threshold

/-- The kept edge pairs of the constructed network. -/
def keptEdges (f : FlowInput) (threshold : ℚ) : List (Nat × Nat) :=
  (f.ix.zip f.ixc).filter (fun p => decide (effectiveThreshold f threshold < f.fac p.1))

theorem mkNetwork_ix (f : FlowInput) (t θ : ℚ) (hlen : f.ix.length = f.ixc.length) :
    (mkNetwork f t θ)._ix = (keptEdges f t).map Prod.fst :=
  (maskSelect_pair_eq_filter f.ix f.ixc
    (fun c => decide (effectiveThreshold f t < f.fac c)) hlen).1

theorem mkNetwork_ixc (f : FlowInput) (t θ : ℚ) (hlen : f.ix.length = f.ixc.length) :
    (mkNetwork f t θ)._ixc = (keptEdges f t).map Prod.snd :=
  (maskSelect_pair_eq_filter f.ix f.ixc
    (fun c => decide (effectiveThreshold f t < f.fac c)) hlen).2

theorem mkNetwork_len_eq (f : FlowInput) (t θ : ℚ)
    (hlen : f.ix.length = f.ixc.length) :
    (mkNetwork f t θ)._ix.length = (mkNetwork f t θ)._ixc.length := by
  rw [mkNetwork_ix f t θ hlen, mkNetwork_ixc f t θ hlen]
  simp

/-- The sub-selection of an ordered edge list stays ordered. -/
theorem mkNetwork_topo (f : FlowInput) (t θ : ℚ)
    (hlen : f.ix.length = f.ixc.length) (htopo : topoSorted f.ix f.ixc) :
    topoSorted (mkNetwork f t θ)._ix (mkNetwork f t θ)._ixc := by
  have hz : (mkNetwork f t θ)._ix.zip (mkNetwork f t θ)._ixc = keptEdges f t := by
    rw [mkNetwork_ix f t θ hlen, mkNetwork_ixc f t θ hlen, zip_fst_snd]
  constructor
  · rw [hz]
    exact htopo.1.sublist (List.filter_sublist _)
  · rw [hz]
    intro p hp
    exact htopo.2 p (List.mem_of_mem_filter hp)

theorem mkNetwork_nodup (f : FlowInput) (t θ : ℚ) (hnodup : f.ix.Nodup) :
    (mkNetwork f t θ)._ix.Nodup := by
  have hsub : (mkNetwork f t θ)._ix.Sublist f.ix := by
    show (maskSelect f.ix _).Sublist f.ix
    generalize f.ix.map _ = mask
    induction f.ix generalizing mask with
    | nil => simp [maskSelect]
    | cons a t ih =>
      cases mask with
      | nil => simp [maskSelect]
      | cons b bs =>
        by_cases hb : b
        · simpa [maskSelect, hb] using (ih bs).cons₂ a
        · simpa [maskSelect, hb] using (ih bs).cons a
  exact hnodup.sublist hsub

/-- Reading a mapped per-edge array at a valid position. -/
theorem getD_map_rat (l : List Nat) (g : Nat → ℚ) {n : Nat} (hn : n < l.length) :
    (l.map g).getD n 0 = g (l.getD n 0) := by
  rw [List.getD_eq_getElem (l.map g) 0 (by simpa using hn), List.getElem_map,
    List.getD_eq_getElem l 0 hn]

/-! ### A concrete network: a main channel 9→8→…→1→0 joined at cell 5 by the
tributary 10→5, on a 1×11 raster.  All cells have accumulation 100, the main
channel has elevation `c²` and the tributary head elevation 30. -/

def exFlow : FlowInput where
  nrows := 1
  ncols := 11
  ncells := 11
  cellsize := 1
  ix := [9, 10, 8, 7, 6, 5, 4, 3, 2, 1]
  ixc := [8, 5, 7, 6, 5, 4, 3, 2, 1, 0]
  fac := fun _ => 100
  dem := fun c => if c = 10 then 30 else ((c : ℚ)) ^ 2
  cellXY := fun rc => ((rc.2 : ℚ), 0)
  sqrtQ := fun _ => 1
  qpow := fun _ _ => 1

def exNet : Network := mkNetwork exFlow 1 (9 / 20)

/-- C10: the constructor treats `threshold = 0` exactly as 0.5% of the cell
count, and in all cases the kept edge arrays are precisely the flow edges,
in order, whose giver's accumulation strictly exceeds the (effective)
threshold. -/
theorem threshold_default_and_edge_filter (f : FlowInput) (θ : ℚ)
    (hlen : f.ix.length = f.ixc.length) :
    mkNetwork f 0 θ = mkNetwork f ((f.ncells : ℚ) * (5 / 1000)) θ ∧
    ∀ t : ℚ, (mkNetwork f t θ)._ix = (keptEdges f t).map Prod.fst
      ∧ (mkNetwork f t θ)._ixc = (keptEdges f t).map Prod.snd := by
  refine ⟨?_, fun t => ⟨mkNetwork_ix f t θ hlen, mkNetwork_ixc f t θ hlen⟩⟩
  unfold mkNetwork
  by_cases h0 : (f.ncells : ℚ) * (5 / 1000) = 0
  · simp [h0]
  · simp [h0]

/-- Witness for C10 at the concrete network. -/
theorem threshold_default_and_edge_filter_witness :
    exFlow.ix.length = exFlow.ixc.length ∧
    mkNetwork exFlow 0 (9 / 20) = mkNetwork exFlow ((exFlow.ncells : ℚ) * (5 / 1000)) (9 / 20) ∧
    (mkNetwork exFlow 1 (9 / 20))._ix = (keptEdges exFlow 1).map Prod.fst :=
  ⟨by decide, (threshold_default_and_edge_filter exFlow (9 / 20) (by decide)).1,
   ((threshold_default_and_edge_filter exFlow (9 / 20) (by decide)).2 1).1⟩

/-- C3: in any constructed network (over ordered, single-giver flow arrays),
whenever the receiver of edge `n` reappears as the giver of edge `m`, the
distance to outlet satisfies `_dx[n] = _dx[m] + _dd[n]` with `_dd[n] ≥ 0`:
`distanceToOutlet` is non-decreasing along any upstream walk. -/
theorem dx_upstream_recurrence (f : FlowInput) (t θ : ℚ)
    (hlen : f.ix.length = f.ixc.length)
    (htopo : topoSorted f.ix f.ixc)
    (hnodup : f.ix.Nodup)
    (hsq : ∀ q : ℚ, 0 ≤ q → 0 ≤ f.sqrtQ q)
    (n m : Nat)
    (hn : n < (mkNetwork f t θ)._ix.length)
    (hm : m < (mkNetwork f t θ)._ix.length)
    (he : (mkNetwork f t θ)._ixc.getD n 0 = (mkNetwork f t θ)._ix.getD m 0) :
    (mkNetwork f t θ)._dx.getD n 0
      = (mkNetwork f t θ)._dx.getD m 0 + (mkNetwork f t θ)._dd.getD n 0
    ∧ 0 ≤ (mkNetwork f t θ)._dd.getD n 0 := by
  have hNlen := mkNetwork_len_eq f t θ hlen
  have hNtopo := mkNetwork_topo f t θ hlen htopo
  have hNnodup := mkNetwork_nodup f t θ hnodup
  have hzlen : ((mkNetwork f t θ)._ix.zip (mkNetwork f t θ)._ixc).length
      = (mkNetwork f t θ)._ix.length := by
    rw [List.length_zip, ← hNlen, Nat.min_self]
  have hdd0 : 0 ≤ (mkNetwork f t θ)._dd.getD n 0 := by
    have hdd : (mkNetwork f t θ)._dd
        = ((mkNetwork f t θ)._ix.zip (mkNetwork f t θ)._ixc).map
            (fun p => dgrOf f p.1 p.2) := rfl
    rw [hdd, List.getD_eq_getElem _ 0 (by simpa [hzlen] using hn), List.getElem_map]
    exact hsq _ (by positivity)
  have hdx : (mkNetwork f t θ)._dx
      = (mkNetwork f t θ)._ix.map
          (passFrom (mkNetwork f t θ)._ix (mkNetwork f t θ)._ixc
            (fun k => (mkNetwork f t θ)._dd.getD k 0) (mkNetwork f t θ)._ix.length) := rfl
  have key := passFrom_edge (mkNetwork f t θ)._ix (mkNetwork f t θ)._ixc
    (fun k => (mkNetwork f t θ)._dd.getD k 0) hNlen hNtopo hNnodup hn hm he
  refine ⟨?_, hdd0⟩
  rw [hdx, getD_map_rat _ _ hn, getD_map_rat _ _ hm]
  exact key

/-- Witness for C3: in the concrete network, edge 1 (tributary 10→5) has its
receiver reappear as the giver of edge 5, and the distances obey the
recurrence. -/
theorem dx_upstream_recurrence_witness :
    (exFlow.ix.length = exFlow.ixc.length ∧ topoSorted exFlow.ix exFlow.ixc ∧
      exFlow.ix.Nodup ∧ exNet._ixc.getD 1 0 = exNet._ix.getD 5 0) ∧
    (exNet._dx.getD 1 0 = exNet._dx.getD 5 0 + exNet._dd.getD 1 0
      ∧ 0 ≤ exNet._dd.getD 1 0) :=
  ⟨⟨by decide, by decide, by decide, by decide⟩,
   dx_upstream_recurrence exFlow 1 (9 / 20) (by decide) (by decide) (by decide)
     (fun _ _ => zero_le_one) 1 5 (by decide) (by decide) (by decide)⟩

/-- C4: for any fixed `thetaref` and `a0 ≥ 0`, after `calculate_chi` the chi
value is non-decreasing upstream: if the receiver of edge `n` reappears as
the giver of edge `m`, then `chi[m] ≤ chi[n]` (edge lengths non-negative,
per-giver areas positive). -/
theorem chi_monotone_upstream (f : FlowInput) (t θ0 θ a0 : ℚ)
    (hlen : f.ix.length = f.ixc.length)
    (htopo : topoSorted f.ix f.ixc)
    (hnodup : f.ix.Nodup)
    (hsq : ∀ q : ℚ, 0 ≤ q → 0 ≤ f.sqrtQ q)
    (ha0 : 0 ≤ a0)
    (hfac : ∀ c, 0 < f.fac c)
    (hcs : 0 < f.cellsize)
    (hqpow : ∀ x e : ℚ, 0 < x → 0 < f.qpow x e)
    (n m : Nat)
    (hn : n < (mkNetwork f t θ0)._ix.length)
    (hm : m < (mkNetwork f t θ0)._ix.length)
    (he : (mkNetwork f t θ0)._ixc.getD n 0 = (mkNetwork f t θ0)._ix.getD m 0) :
    ((mkNetwork f t θ0).calculate_chi θ a0).getD m 0
      ≤ ((mkNetwork f t θ0).calculate_chi θ a0).getD n 0 := by
  have hNlen := mkNetwork_len_eq f t θ0 hlen
  have hNtopo := mkNetwork_topo f t θ0 hlen htopo
  have hNnodup := mkNetwork_nodup f t θ0 hnodup
  have hzlen : ((mkNetwork f t θ0)._ix.zip (mkNetwork f t θ0)._ixc).length
      = (mkNetwork f t θ0)._ix.length := by
    rw [List.length_zip, ← hNlen, Nat.min_self]
  have hdd0 : 0 ≤ (mkNetwork f t θ0)._dd.getD n 0 := by
    have hdd : (mkNetwork f t θ0)._dd
        = ((mkNetwork f t θ0)._ix.zip (mkNetwork f t θ0)._ixc).map
            (fun p => dgrOf f p.1 p.2) := rfl
    rw [hdd, List.getD_eq_getElem _ 0 (by simpa [hzlen] using hn), List.getElem_map]
    exact hsq _ (by positivity)
  have hax : 0 < (mkNetwork f t θ0)._ax.getD n 0 := by
    have hax' : (mkNetwork f t θ0)._ax
        = (mkNetwork f t θ0)._ix.map (fun c => f.fac c * f.cellsize ^ 2) := rfl
    rw [hax', getD_map_rat _ _ hn]
    exact mul_pos (hfac _) (pow_pos hcs 2)
  have hchi : (mkNetwork f t θ0).calculate_chi θ a0
      = (mkNetwork f t θ0)._ix.map
          (passFrom (mkNetwork f t θ0)._ix (mkNetwork f t θ0)._ixc
            (fun k => a0 * (mkNetwork f t θ0)._dd.getD k 0
              / (mkNetwork f t θ0).qpow ((mkNetwork f t θ0)._ax.getD k 0) θ)
            (mkNetwork f t θ0)._ix.length) := rfl
  have key := passFrom_edge (mkNetwork f t θ0)._ix (mkNetwork f t θ0)._ixc
    (fun k => a0 * (mkNetwork f t θ0)._dd.getD k 0
      / (mkNetwork f t θ0).qpow ((mkNetwork f t θ0)._ax.getD k 0) θ)
    hNlen hNtopo hNnodup hn hm he
  have hterm : 0 ≤ a0 * (mkNetwork f t θ0)._dd.getD n 0
      / (mkNetwork f t θ0).qpow ((mkNetwork f t θ0)._ax.getD n 0) θ := by
    have hq : 0 < (mkNetwork f t θ0).qpow ((mkNetwork f t θ0)._ax.getD n 0) θ :=
      hqpow _ _ hax
    exact div_nonneg (mul_nonneg ha0 hdd0) (le_of_lt hq)
  rw [hchi, getD_map_rat _ _ hn, getD_map_rat _ _ hm]
  rw [key]
  linarith

/-- Witness for C4 at the concrete network, edges 1 and 5. -/
theorem chi_monotone_upstream_witness :
    (exFlow.ix.length = exFlow.ixc.length ∧ topoSorted exFlow.ix exFlow.ixc ∧
      exFlow.ix.Nodup ∧ (0 : ℚ) ≤ 1 ∧
      exNet._ixc.getD 1 0 = exNet._ix.getD 5 0) ∧
    (exNet.calculate_chi (9 / 20) 1).getD 5 0 ≤ (exNet.calculate_chi (9 / 20) 1).getD 1 0 :=
  ⟨⟨by decide, by decide, by decide, zero_le_one, by decide⟩,
   chi_monotone_upstream exFlow 1 (9 / 20) (9 / 20) 1 (by decide) (by decide) (by decide)
     (fun _ _ => zero_le_one) zero_le_one (fun _ => by norm_num [exFlow])
     (by norm_num [exFlow]) (fun _ _ _ => zero_lt_one)
     1 5 (by decide) (by decide) (by decide)⟩

/-! ### Points of interest (`get_stream_poi`) -/

/-- Column sums of the sparse giver→receiver adjacency: the number of edges
whose receiver is `c`. -/
def indegree (ixc : List Nat) (c : Nat) : Nat := ixc.count c

/-- Row sums of the sparse giver→receiver adjacency: the number of edges
whose giver is `c` (0 or 1 for single-receiver flow). -/
def outdegree (ix : List Nat) (c : Nat) : Nat := ix.count c

/-- The channel-cell mask `w`: true at cells appearing in `_ix` or `_ixc`. -/
def chanMask (ix ixc : List Nat) (c : Nat) : Bool :=
  decide (c ∈ ix ∨ c ∈ ixc)

/-- The boolean mask `out_pos` selected by `get_stream_poi` for each kind:
heads are channel cells with no incoming edge, confluences are cells with
two or more incoming edges, outlets are channel cells that are never a
giver. -/
def poiMask (net : Network) (kind : String) : Nat → Bool :=
  if kind = "heads" then
    fun c => decide (indegree net._ixc c = 0) && chanMask net._ix net._ixc c
  else if kind = "confluences" then
    fun c => decide (1 < indegree net._ixc c)
  else
    fun c => decide (outdegree net._ix c = 0) && chanMask net._ix net._ixc c

/-- `np.where(out_pos.reshape(dims))`: the selected cells in row-major scan
order, as (row, col) pairs. -/
def poiRowCol (net : Network) (kind : String) : List (Nat × Nat) :=
  ((List.range net._ncells).filter (poiMask net kind)).map (ind2cell net._ncols)

/-- The three output coordinate presentations of `get_stream_poi`. -/
inductive POIOut where
  | cellOut : List (Nat × Nat) → POIOut
  | xyOut : List (ℚ × ℚ) → POIOut
  | indOut : List Nat → POIOut
  deriving DecidableEq, Repr

/-- `Network.get_stream_poi(kind, coords)`: invalid selectors silently fall
back to `'heads'` / `'CELL'`; the mask is built from the giver/receiver
degree counts and presented as (row, col), (x, y) or linear indices. -/
def Network.get_stream_poi (net : Network) (kind coords : String) : POIOut :=
  let kind := if kind ∈ ["heads", "confluences", "outlets"] then kind else "heads"
  let coords := if coords ∈ ["CELL", "XY", "IND"] then coords else "CELL"
  let rc := poiRowCol net kind
  if coords = "CELL" then POIOut.cellOut rc
  else if coords = "XY" then POIOut.xyOut (rc.map net.cellXY)
  else POIOut.indOut (rc.map (cell2ind net._ncols))

/-- C9: for any selector strings outside the recognized sets, the call does
not fail and returns exactly the default `('heads', 'CELL')` result. -/
theorem stream_poi_invalid_selector_fallback (net : Network) (kind coords : String)
    (hk : kind ∉ ["heads", "confluences", "outlets"])
    (hc : coords ∉ ["CELL", "XY", "IND"]) :
    net.get_stream_poi kind coords = net.get_stream_poi "heads" "CELL" := by
  unfold Network.get_stream_poi
  rw [if_neg hk, if_neg hc]
  simp

/-- Witness for C9 on the concrete network with junk selectors. -/
theorem stream_poi_invalid_selector_fallback_witness :
    ("foo" ∉ ["heads", "confluences", "outlets"] ∧ "bar" ∉ ["CELL", "XY", "IND"]) ∧
    exNet.get_stream_poi "foo" "bar" = exNet.get_stream_poi "heads" "CELL" :=
  ⟨⟨by decide, by decide⟩,
   stream_poi_invalid_selector_fallback exNet "foo" "bar" (by decide) (by decide)⟩

/-! ### Point snapping (`snap_points`) -/

/-- Index of the first minimum of a row, as `np.argmin` computes it on a
non-empty axis. -/
def argminIdx : List ℚ → Nat
  | [] => 0
  | [_] => 0
  | x :: y :: t =>
    let j := argminIdx (y :: t)
    if x ≤ (y :: t).getD j 0 then 0 else j + 1

/-- `np.argmin(di, axis=1)`: numpy raises `ValueError` ("attempt to get
argmin of an empty sequence") whenever the reduced axis has length zero,
before producing any output; otherwise it returns the per-row index of the
first minimum. -/
def np_argmin_axis1 (rows : List (List ℚ)) (ncols : Nat) : Except PyErr (List Nat) :=
  if ncols = 0 then Except.error PyErr.valueError else Except.ok (rows.map argminIdx)

/-- The reference point set `poi` assembled by `snap_points`: the POI
coordinates for `'heads'`/`'confluences'`/`'outlets'`, or all channel-cell
coordinates for `'channel'` (the silent default for other strings). -/
def snapRefs (net : Network) (kind : String) : List (ℚ × ℚ) :=
  let kind := if kind ∈ ["channel", "heads", "confluences", "outlets"] then kind
    else "channel"
  if kind ∈ ["heads", "confluences", "outlets"] then
    match net.get_stream_poi kind "XY" with
    | POIOut.xyOut l => l
    | _ => []
  else
    net._ix.map (fun i => net.cellXY (ind2cell net._ncols i))

/-- `Network.snap_points(input_points, kind)`: full pairwise Euclidean
distances from the query points to the reference set, then per-row argmin
and a lookup of the winning reference coordinate. -/
def Network.snap_points (net : Network) (pts : List (ℚ × ℚ)) (kind : String) :
    Except PyErr (List (ℚ × ℚ)) :=
  let poi := snapRefs net kind
  let di := pts.map (fun p =>
    poi.map (fun q => net.sqrtQ ((p.1 - q.1) ^ 2 + (p.2 - q.2) ^ 2)))
  match np_argmin_axis1 di poi.length with
  | Except.error e => Except.error e
  | Except.ok pos => Except.ok (pos.map (fun i => poi.getD i (0, 0)))

/-- C8: a snap query against an empty reference set (no confluences, empty
network, …) always fails with numpy's `ValueError`; it never silently
returns an array. -/
theorem snap_points_empty_reference_error (net : Network) (pts : List (ℚ × ℚ))
    (kind : String) (h : snapRefs net kind = []) :
    net.snap_points pts kind = Except.error PyErr.valueError := by
  unfold Network.snap_points np_argmin_axis1
  simp [h]

/-- A three-cell straight channel 2→1→0 with no confluence, used as the
degenerate reference set for snapping. -/
def exLineFlow : FlowInput where
  nrows := 1
  ncols := 3
  ncells := 3
  cellsize := 1
  ix := [2, 1]
  ixc := [1, 0]
  fac := fun _ => 10
  dem := fun c => (c : ℚ)
  cellXY := fun rc => ((rc.2 : ℚ), 0)
  sqrtQ := fun q => q
  qpow := fun x _ => x

def exLineNet : Network := mkNetwork exLineFlow 1 (9 / 20)

/-- Witness for C8: the straight channel has no confluence cells, and
snapping to `'confluences'` errors. -/
theorem snap_points_empty_reference_error_witness :
    snapRefs exLineNet "confluences" = [] ∧
    exLineNet.snap_points [(0, 0)] "confluences" = Except.error PyErr.valueError :=
  ⟨by decide,
   snap_points_empty_reference_error exLineNet [(0, 0)] "confluences" (by decide)⟩

/-! ### The `_chcells` readers (`get_streams`, `get_stream_order`) -/

/-- `Network.get_streams(asgrid)`: reads `self._chcells`, which no method of
the class ever assigns, so the read raises `AttributeError`; the remaining
body (kept for completeness) would mark the listed cells with 1. -/
def Network.get_streams (net : Network) (asgrid : Bool) : Except PyErr (Nat → Nat) :=
  match net._chcells with
  | none => Except.error PyErr.attributeError
  | some ch => Except.ok (fun c => if c ∈ ch then 1 else 0)

/-- `Network.get_stream_order(kind, asgrid)`: an unrecognized kind returns
`None`; otherwise the method reads `self._chcells` (raising
`AttributeError`, since it is never assigned) and would then run the
forward Strahler/Shreeve propagation over the edge list. -/
def Network.get_stream_order (net : Network) (kind : String) (asgrid : Bool) :
    Except PyErr (Option (Nat → Nat)) :=
  if kind ∉ ["strahler", "shreeve"] then Except.ok none
  else
    match net._chcells with
    | none => Except.error PyErr.attributeError
    | some ch =>
      let s0 : Nat → Nat := fun c => if c ∈ ch then 1 else 0
      let start : (Nat → Nat) × (Nat → Bool) := (s0, fun _ => false)
      let edges := net._ix.zip net._ixc
      if kind = "strahler" then
        Except.ok (some ((edges.foldl (fun (sv : (Nat → Nat) × (Nat → Bool)) e =>
          if sv.1 e.2 = sv.1 e.1 ∧ sv.2 e.2 = true then
            (Function.update sv.1 e.2 (sv.1 e.2 + 1), sv.2)
          else
            (Function.update sv.1 e.2 (max (sv.1 e.1) (sv.1 e.2)),
              Function.update sv.2 e.2 true)) start).1))
      else
        Except.ok (some ((edges.foldl (fun (sv : (Nat → Nat) × (Nat → Bool)) e =>
          if sv.2 e.2 = true then
            (Function.update sv.1 e.2 (sv.1 e.2 + sv.1 e.1), sv.2)
          else
            (Function.update sv.1 e.2 (max (sv.1 e.1) (sv.1 e.2)),
              Function.update sv.2 e.2 true)) start).1))

/-- C2: every constructed network fails any `get_streams` or
`get_stream_order('strahler'/'shreeve')` call with `AttributeError`,
because `_chcells` is read but never assigned. -/
theorem network_streams_attribute_error (f : FlowInput) (t θ : ℚ) (b : Bool) :
    (mkNetwork f t θ).get_streams b = Except.error PyErr.attributeError ∧
    (mkNetwork f t θ).get_stream_order "strahler" b = Except.error PyErr.attributeError ∧
    (mkNetwork f t θ).get_stream_order "shreeve" b = Except.error PyErr.attributeError :=
  ⟨rfl, rfl, rfl⟩

/-- C1 (code bug witness): on the concrete network where two order-1
tributaries (heads 9 and 10) meet at the confluence cell 5,
`get_stream_order` raises `AttributeError` instead of computing the
Strahler/Shreeve orders the spec describes, because the channel-cell
attribute `_chcells` it initializes the orders from is never assigned. -/
theorem stream_order_attribute_error_concrete :
    exNet.get_stream_order "strahler" false = Except.error PyErr.attributeError ∧
    exNet.get_stream_order "shreeve" false = Except.error PyErr.attributeError :=
  ⟨rfl, rfl⟩

/-! ### Stream segment labeling (`get_stream_segments`) -/

/-- `get_stream_poi(kind, "IND")` as a plain index list. -/
def poiIND (net : Network) (kind : String) : List Nat :=
  match net.get_stream_poi kind "IND" with
  | POIOut.indOut l => l
  | _ => []

/-- The initialization loop `for n, inds in enumerate(all_ind):
seg_arr[inds] = n + 1`, applied on top of state `s` with ids starting at
`base + 1`. -/
def assignIdsFrom : List Nat → Nat → (Nat → Nat) → (Nat → Nat)
  | [], _, s => s
  | a :: t, base, s => assignIdsFrom t (base + 1) (Function.update s a (base + 1))

/-- One step of the propagation loop: if the receiver's id is unset, give
it the giver's id. -/
def segStep (s : Nat → Nat) (e : Nat × Nat) : Nat → Nat :=
  if s e.2 = 0 then Function.update s e.2 (s e.1) else s

/-- `Network.get_stream_segments(asgrid=False)` (the reshape to raster
dimensions is presentational): number the heads then the confluences with
consecutive ids starting at 1, then walk the edge list forward, assigning
each still-unset receiver its giver's id. -/
def Network.get_stream_segments (net : Network) : Nat → Nat :=
  let all_ind := poiIND net "heads" ++ poiIND net "confluences"
  let seg0 := assignIdsFrom all_ind 0 (fun _ => 0)
  (net._ix.zip net._ixc).foldl segStep seg0

/-- Generic form of the head index list produced by
`get_stream_poi('heads','IND')`. -/
def headIdxList (ix ixc : List Nat) (ncells : Nat) : List Nat :=
  (List.range ncells).filter
    (fun c => decide (indegree ixc c = 0) && chanMask ix ixc c)

/-- Generic form of the confluence index list produced by
`get_stream_poi('confluences','IND')`. -/
def confIdxList (ixc : List Nat) (ncells : Nat) : List Nat :=
  (List.range ncells).filter (fun c => decide (1 < indegree ixc c))

/-- Round trip of the raster conversions: `cell_2_ind ∘ ind_2_cell = id`. -/
theorem cell2ind_ind2cell (ncols i : Nat) : cell2ind ncols (ind2cell ncols i) = i := by
  show i / ncols * ncols + i % ncols = i
  rw [Nat.mul_comm]
  exact Nat.div_add_mod i ncols

theorem map_cell2ind_ind2cell (ncols : Nat) (l : List Nat) :
    l.map (cell2ind ncols ∘ ind2cell ncols) = l := by
  have hid : (cell2ind ncols ∘ ind2cell ncols) = id := funext (cell2ind_ind2cell ncols)
  rw [hid, List.map_id]

theorem poiIND_heads (net : Network) :
    poiIND net "heads" = headIdxList net._ix net._ixc net._ncells := by
  unfold poiIND Network.get_stream_poi poiRowCol poiMask headIdxList
  simp [map_cell2ind_ind2cell]

theorem poiIND_confluences (net : Network) :
    poiIND net "confluences" = confIdxList net._ixc net._ncells := by
  unfold poiIND Network.get_stream_poi poiRowCol poiMask confIdxList
  simp [map_cell2ind_ind2cell]

/-- The initial id array of the segmentation: heads, then confluences,
numbered consecutively from 1. -/
def segInit (ix ixc : List Nat) (ncells : Nat) : Nat → Nat :=
  assignIdsFrom (headIdxList ix ixc ncells ++ confIdxList ixc ncells) 0 (fun _ => 0)

theorem get_stream_segments_eq (net : Network) :
    net.get_stream_segments
      = (net._ix.zip net._ixc).foldl segStep
          (segInit net._ix net._ixc net._ncells) := by
  unfold Network.get_stream_segments segInit
  rw [poiIND_heads, poiIND_confluences]

/-! #### Properties of the id initialization -/

theorem assignIdsFrom_notmem {l : List Nat} {c : Nat} (h : c ∉ l) (base : Nat)
    (s : Nat → Nat) : assignIdsFrom l base s c = s c := by
  induction l generalizing base s with
  | nil => rfl
  | cons a t ih =>
    have hat : c ≠ a := fun hc => h (hc ▸ List.mem_cons_self a t)
    have hct : c ∉ t := fun hc => h (List.mem_cons_of_mem a hc)
    rw [assignIdsFrom, ih hct, Function.update_noteq hat]

theorem assignIdsFrom_get {l : List Nat} (hnd : l.Nodup) (base : Nat) (s : Nat → Nat)
    {k : Nat} (hk : k < l.length) :
    assignIdsFrom l base s (l.get ⟨k, hk⟩) = base + k + 1 := by
  induction l generalizing base s k with
  | nil => simp at hk
  | cons a t ih =>
    cases k with
    | zero =>
      have hat : a ∉ t := (List.nodup_cons.mp hnd).1
      show assignIdsFrom t (base + 1) (Function.update s a (base + 1)) a = base + 0 + 1
      rw [assignIdsFrom_notmem hat, Function.update_same]
    | succ k =>
      have hk' : k < t.length := by simpa using hk
      have := ih (List.nodup_cons.mp hnd).2 (base + 1) (Function.update s a (base + 1)) hk'
      show assignIdsFrom t (base + 1) (Function.update s a (base + 1)) (t.get ⟨k, hk'⟩)
        = base + (k + 1) + 1
      rw [this]
      omega

/-! #### Properties of the forward propagation -/

/-- A step never changes a cell that already carries a nonzero id. -/
theorem segStep_stable {s : Nat → Nat} {c : Nat} (h : s c ≠ 0) (e : Nat × Nat) :
    segStep s e c = s c := by
  unfold segStep
  by_cases h2 : s e.2 = 0
  · rw [if_pos h2]
    have hce : c ≠ e.2 := fun hc => h (hc ▸ h2)
    exact Function.update_noteq hce _ _
  · rw [if_neg h2]

/-- A fold of steps none of which targets `c` leaves `c` unchanged. -/
theorem segFold_untouched {c : Nat} (L : List (Nat × Nat)) (s : Nat → Nat)
    (h : ∀ e ∈ L, e.2 ≠ c) : L.foldl segStep s c = s c := by
  induction L generalizing s with
  | nil => rfl
  | cons e t ih =>
    have he : e.2 ≠ c := h e (List.mem_cons_self e t)
    have hstep : segStep s e c = s c := by
      unfold segStep
      by_cases h2 : s e.2 = 0
      · rw [if_pos h2, Function.update_noteq (fun hc => he hc.symm)]
      · rw [if_neg h2]
    rw [List.foldl_cons, ih _ (fun x hx => h x (List.mem_cons_of_mem e hx)), hstep]

/-- The propagation state after the first `k` edges. -/
def segAfter (E : List (Nat × Nat)) (s0 : Nat → Nat) (k : Nat) : Nat → Nat :=
  (E.take k).foldl segStep s0

theorem segAfter_zero (E : List (Nat × Nat)) (s0 : Nat → Nat) :
    segAfter E s0 0 = s0 := rfl

theorem segAfter_succ (E : List (Nat × Nat)) (s0 : Nat → Nat) {k : Nat}
    (hk : k < E.length) :
    segAfter E s0 (k + 1) = segStep (segAfter E s0 k) (E.get ⟨k, hk⟩) := by
  unfold segAfter
  rw [List.take_succ, List.foldl_append]
  have : E[k]? = some (E.get ⟨k, hk⟩) := by
    rw [List.getElem?_eq_getElem hk]; rfl
  rw [this]
  rfl

theorem segAfter_succ_past (E : List (Nat × Nat)) (s0 : Nat → Nat) {k : Nat}
    (hk : E.length ≤ k) :
    segAfter E s0 (k + 1) = segAfter E s0 k := by
  unfold segAfter
  rw [List.take_of_length_le hk, List.take_of_length_le (by omega)]

/-- Once a cell's id is nonzero it never changes again. -/
theorem segAfter_mono (E : List (Nat × Nat)) (s0 : Nat → Nat) (k₁ k₂ : Nat) (c : Nat)
    (h12 : k₁ ≤ k₂) (h : segAfter E s0 k₁ c ≠ 0) :
    segAfter E s0 k₂ c = segAfter E s0 k₁ c := by
  induction k₂ with
  | zero =>
    have : k₁ = 0 := Nat.le_zero.mp h12
    rw [this]
  | succ k ih =>
    by_cases hk1 : k₁ = k + 1
    · rw [hk1]
    · have h12' : k₁ ≤ k := by omega
      have hprev := ih h12'
      by_cases hkE : k < E.length
      · rw [segAfter_succ E s0 hkE, segStep_stable (hprev ▸ h), hprev]
      · rw [segAfter_succ_past E s0 (by omega), hprev]

/-! #### Membership of the boundary id list -/

theorem mem_headIdxList {ix ixc : List Nat} {ncells c : Nat} :
    c ∈ headIdxList ix ixc ncells
      ↔ c < ncells ∧ (indegree ixc c = 0 ∧ (c ∈ ix ∨ c ∈ ixc)) := by
  simp [headIdxList, chanMask, List.mem_filter, List.mem_range]

theorem mem_confIdxList {ixc : List Nat} {ncells c : Nat} :
    c ∈ confIdxList ixc ncells ↔ c < ncells ∧ 1 < indegree ixc c := by
  simp [confIdxList, List.mem_filter, List.mem_range]

theorem allIdx_nodup (ix ixc : List Nat) (ncells : Nat) :
    (headIdxList ix ixc ncells ++ confIdxList ixc ncells).Nodup := by
  refine ((List.nodup_range ncells).filter _).append ((List.nodup_range ncells).filter _) ?_
  intro c hc1 hc2
  have h1 := (mem_headIdxList.mp hc1).2.1
  have h2 := (mem_confIdxList.mp hc2).2
  omega

theorem segInit_notmem {ix ixc : List Nat} {ncells c : Nat}
    (h : c ∉ headIdxList ix ixc ncells ++ confIdxList ixc ncells) :
    segInit ix ixc ncells c = 0 := by
  unfold segInit
  rw [assignIdsFrom_notmem h]

theorem segInit_get (ix ixc : List Nat) (ncells : Nat) {k : Nat}
    (hk : k < (headIdxList ix ixc ncells ++ confIdxList ixc ncells).length) :
    segInit ix ixc ncells
      ((headIdxList ix ixc ncells ++ confIdxList ixc ncells).get ⟨k, hk⟩) = k + 1 := by
  unfold segInit
  rw [assignIdsFrom_get (allIdx_nodup ix ixc ncells) 0 _ hk]
  omega

theorem segInit_pos_of_mem {ix ixc : List Nat} {ncells c : Nat}
    (hc : c ∈ headIdxList ix ixc ncells ++ confIdxList ixc ncells) :
    0 < segInit ix ixc ncells c := by
  obtain ⟨⟨k, hk⟩, hv⟩ := List.mem_iff_get.mp hc
  rw [← hv, segInit_get ix ixc ncells hk]
  omega

/-! #### The first incoming edge of a cell -/

/-- Position of the first edge whose receiver is `c` (the edge the forward
propagation uses to assign `c` its id). -/
def firstIncoming : List Nat → Nat → Option Nat
  | [], _ => none
  | r :: t, c => if r = c then some 0 else (firstIncoming t c).map (· + 1)

theorem firstIncoming_eq_none {l : List Nat} {c : Nat} :
    firstIncoming l c = none ↔ c ∉ l := by
  induction l with
  | nil => simp [firstIncoming]
  | cons r t ih =>
    by_cases hr : r = c
    · simp [firstIncoming, hr]
    · rw [firstIncoming, if_neg hr]
      constructor
      · intro h
        have ht : firstIncoming t c = none := by
          cases hft : firstIncoming t c with
          | none => rfl
          | some j => rw [hft] at h; simp at h
        intro hmem
        rcases List.mem_cons.mp hmem with hc | hc
        · exact hr hc.symm
        · exact (ih.mp ht) hc
      · intro hmem
        have hct : c ∉ t := fun hc => hmem (List.mem_cons_of_mem r hc)
        rw [ih.mpr hct]
        rfl

theorem firstIncoming_spec {l : List Nat} {c j : Nat}
    (h : firstIncoming l c = some j) :
    j < l.length ∧ l.getD j 0 = c ∧ ∀ k, k < j → l.getD k 0 ≠ c := by
  induction l generalizing j with
  | nil => simp [firstIncoming] at h
  | cons r t ih =>
    by_cases hr : r = c
    · rw [firstIncoming, if_pos hr] at h
      obtain rfl : (0 : Nat) = j := Option.some_inj.mp h
      exact ⟨by simp, by simpa using hr, by omega⟩
    · rw [firstIncoming, if_neg hr] at h
      cases ht : firstIncoming t c with
      | none => rw [ht] at h; simp at h
      | some j2 =>
        rw [ht] at h
        obtain rfl : j2 + 1 = j := by simpa using h
        obtain ⟨hj2, hv2, hf2⟩ := ih ht
        refine ⟨by simpa using hj2, by simpa using hv2, ?_⟩
        intro k hk
        cases k with
        | zero => simpa using hr
        | succ k => simpa using hf2 k (by omega)

theorem firstIncoming_isSome {l : List Nat} {c : Nat} (h : c ∈ l) :
    ∃ j, firstIncoming l c = some j := by
  cases hf : firstIncoming l c with
  | none => exact absurd (firstIncoming_eq_none.mp hf) (by simpa using h)
  | some j => exact ⟨j, rfl⟩

/-- Depth bound used for the upstream boundary search. -/
def incomingMeasure (ixc : List Nat) (c : Nat) : Nat :=
  match firstIncoming ixc c with
  | none => 0
  | some j => j + 1

theorem incomingMeasure_lt (ixc : List Nat) (c : Nat) :
    incomingMeasure ixc c < ixc.length + 1 := by
  unfold incomingMeasure
  cases hf : firstIncoming ixc c with
  | none => show 0 < ixc.length + 1; omega
  | some j =>
    show j + 1 < ixc.length + 1
    have := (firstIncoming_spec hf).1
    omega

/-- Modelled from the spec: the upstream boundary of the segment containing
a channel cell, formalizing "two cells lie on the same path between
consecutive head/confluence/outlet boundaries".  A head or confluence is
its own boundary; any other channel cell inherits the boundary of the
giver of its (unique) incoming edge.  `fuel` bounds the recursion depth. -/
def segRootF (ix ixc : List Nat) : Nat → Nat → Nat
  | 0, c => c
  | fuel + 1, c =>
    if indegree ixc c = 0 ∨ 1 < indegree ixc c then c
    else
      match firstIncoming ixc c with
      | none => c
      | some j => segRootF ix ixc fuel (ix.getD j 0)

/-- The upstream boundary of a channel cell's segment (enough fuel for any
cell). -/
def segRoot (ix ixc : List Nat) (c : Nat) : Nat :=
  segRootF ix ixc (ixc.length + 1) c

theorem segAfter_length (E : List (Nat × Nat)) (s0 : Nat → Nat) :
    segAfter E s0 E.length = E.foldl segStep s0 := by
  unfold segAfter
  rw [List.take_length]

/-- Before its own outgoing edge is processed, every giver already carries
a positive id: boundary givers are numbered by the initialization, and an
interior giver inherits a positive id when its first incoming edge (which
precedes its outgoing edge in topological order) is processed. -/
theorem seg_pos_at_giver (ix ixc : List Nat) (ncells : Nat)
    (hlen : ix.length = ixc.length)
    (htopo : topoSorted ix ixc)
    (hltx : ∀ c ∈ ix, c < ncells) :
    ∀ k, ∀ hk : k < (ix.zip ixc).length,
      0 < segAfter (ix.zip ixc) (segInit ix ixc ncells) k
            (((ix.zip ixc).get ⟨k, hk⟩).1) := by
  have hElen : (ix.zip ixc).length = ix.length := by simp [List.length_zip, hlen]
  intro k
  induction k using Nat.strong_induction_on with
  | _ k ih =>
    intro hk
    have hkx : k < ix.length := by omega
    have hfst : (((ix.zip ixc).get ⟨k, hk⟩)).1 = ix[k] := by
      rw [List.get_eq_getElem, List.getElem_zip]
    rw [hfst]
    have hgmem : ix[k] ∈ ix := List.getElem_mem hkx
    by_cases hgA : ix[k] ∈ headIdxList ix ixc ncells ++ confIdxList ixc ncells
    · have hpos := segInit_pos_of_mem hgA
      have hmono := segAfter_mono (ix.zip ixc) (segInit ix ixc ncells)
        0 k ix[k] (Nat.zero_le _)
        (by rw [segAfter_zero]; omega)
      rw [hmono, segAfter_zero]
      exact hpos
    · have hclt : ix[k] < ncells := hltx _ hgmem
      have hind0 : indegree ixc ix[k] ≠ 0 := by
        intro h0
        exact hgA (List.mem_append.mpr
          (Or.inl (mem_headIdxList.mpr ⟨hclt, h0, Or.inl hgmem⟩)))
      have hmemc : ix[k] ∈ ixc := by
        have hcp : 0 < ixc.count ix[k] := Nat.pos_of_ne_zero hind0
        exact List.count_pos_iff.mp hcp
      obtain ⟨j, hjf⟩ := firstIncoming_isSome hmemc
      obtain ⟨hj, hjv, _⟩ := firstIncoming_spec hjf
      have hjk : j < k := by
        refine htopo.pos_lt hlen (by omega) hkx ?_
        rw [hjv, List.getD_eq_getElem ix 0 hkx]
      have hjE : j < (ix.zip ixc).length := by omega
      have hsnd : (((ix.zip ixc).get ⟨j, hjE⟩)).2 = ix[k] := by
        rw [List.get_eq_getElem, List.getElem_zip]
        show ixc[j] = ix[k]
        rw [← List.getD_eq_getElem ixc 0 hj, hjv]
      have hstep : 0 < segAfter (ix.zip ixc) (segInit ix ixc ncells) (j + 1) ix[k] := by
        rw [segAfter_succ _ _ hjE]
        unfold segStep
        by_cases hz : segAfter (ix.zip ixc) (segInit ix ixc ncells) j
            (((ix.zip ixc).get ⟨j, hjE⟩).2) = 0
        · rw [if_pos hz, hsnd, Function.update_same]
          exact ih j hjk hjE
        · rw [if_neg hz]
          rw [hsnd] at hz
          exact Nat.pos_of_ne_zero hz
      have hmono := segAfter_mono (ix.zip ixc) (segInit ix ixc ncells)
        (j + 1) k ix[k] (by omega)
        (Nat.pos_iff_ne_zero.mp hstep)
      rw [hmono]
      exact hstep

/-- The final id of every channel cell is the initial id of the upstream
boundary of its segment (which is a head or a confluence). -/
theorem seg_final_eq_root (ix ixc : List Nat) (ncells : Nat)
    (hlen : ix.length = ixc.length)
    (htopo : topoSorted ix ixc)
    (hltx : ∀ c ∈ ix, c < ncells)
    (hltc : ∀ c ∈ ixc, c < ncells) :
    ∀ fuel c, (c ∈ ix ∨ c ∈ ixc) → incomingMeasure ixc c < fuel →
      (ix.zip ixc).foldl segStep (segInit ix ixc ncells) c
          = segInit ix ixc ncells (segRootF ix ixc fuel c)
        ∧ segRootF ix ixc fuel c
            ∈ headIdxList ix ixc ncells ++ confIdxList ixc ncells := by
  have hElen : (ix.zip ixc).length = ix.length := by simp [List.length_zip, hlen]
  intro fuel
  induction fuel with
  | zero => intro c _ hm; omega
  | succ fuel ih =>
    intro c hchan hm
    have hclt : c < ncells := by
      rcases hchan with h | h
      exacts [hltx c h, hltc c h]
    by_cases hb : indegree ixc c = 0 ∨ 1 < indegree ixc c
    · have hroot : segRootF ix ixc (fuel + 1) c = c := by
        simp only [segRootF]
        rw [if_pos hb]
      have hcA : c ∈ headIdxList ix ixc ncells ++ confIdxList ixc ncells := by
        rcases hb with h0 | h1
        · exact List.mem_append.mpr (Or.inl (mem_headIdxList.mpr ⟨hclt, h0, hchan⟩))
        · exact List.mem_append.mpr (Or.inr (mem_confIdxList.mpr ⟨hclt, h1⟩))
      refine ⟨?_, by rw [hroot]; exact hcA⟩
      rw [hroot]
      have hmono := segAfter_mono (ix.zip ixc) (segInit ix ixc ncells)
        0 (ix.zip ixc).length c (Nat.zero_le _)
        (by rw [segAfter_zero]; exact Nat.pos_iff_ne_zero.mp (segInit_pos_of_mem hcA))
      rw [← segAfter_length, hmono, segAfter_zero]
    · have hbo := hb
      push_neg at hb
      obtain ⟨hind0, hind1⟩ := hb
      have hmemc : c ∈ ixc := by
        have hcp : 0 < ixc.count c := Nat.pos_of_ne_zero hind0
        exact List.count_pos_iff.mp hcp
      obtain ⟨j, hjf⟩ := firstIncoming_isSome hmemc
      obtain ⟨hj, hjv, hjfirst⟩ := firstIncoming_spec hjf
      have hjfuel : j + 1 ≤ fuel := by
        have hmeq : incomingMeasure ixc c = j + 1 := by
          unfold incomingMeasure
          rw [hjf]
        omega
      have hjx : j < ix.length := by omega
      have hroot : segRootF ix ixc (fuel + 1) c
          = segRootF ix ixc fuel (ix.getD j 0) := by
        simp only [segRootF]
        rw [if_neg hbo, hjf]
      have hgmem : ix.getD j 0 ∈ ix := by
        rw [List.getD_eq_getElem ix 0 hjx]
        exact List.getElem_mem hjx
      have hjE : j < (ix.zip ixc).length := by omega
      have hcnotA : c ∉ headIdxList ix ixc ncells ++ confIdxList ixc ncells := by
        intro hcA
        rcases List.mem_append.mp hcA with hh | hh
        · exact hind0 (mem_headIdxList.mp hh).2.1
        · have := (mem_confIdxList.mp hh).2
          omega
      have hc0 : segAfter (ix.zip ixc) (segInit ix ixc ncells) j c = 0 := by
        have huntouched : ∀ e ∈ (ix.zip ixc).take j, e.2 ≠ c := by
          intro e he
          obtain ⟨k2, hk2, hev⟩ := List.mem_iff_getElem.mp he
          have hk2j : k2 < j := by
            simp [List.length_take] at hk2
            omega
          have hk2E : k2 < (ix.zip ixc).length := by omega
          have hk2x : k2 < ix.length := by omega
          have hk2c : k2 < ixc.length := by omega
          have hval : ((ix.zip ixc).take j)[k2] = (ix.zip ixc)[k2] := List.getElem_take _
          have hsplit : (ix.zip ixc)[k2] = (ix[k2], ixc[k2]) := List.getElem_zip
          rw [hval, hsplit] at hev
          rw [← hev]
          show ixc[k2] ≠ c
          rw [← List.getD_eq_getElem ixc 0 hk2c]
          exact hjfirst k2 hk2j
        show ((ix.zip ixc).take j).foldl segStep (segInit ix ixc ncells) c = 0
        rw [segFold_untouched _ _ huntouched]
        exact segInit_notmem hcnotA
      have hsnd : (((ix.zip ixc).get ⟨j, hjE⟩)).2 = c := by
        rw [List.get_eq_getElem, List.getElem_zip]
        show ixc[j] = c
        rw [← List.getD_eq_getElem ixc 0 hj, hjv]
      have hgfst : (((ix.zip ixc).get ⟨j, hjE⟩)).1 = ix.getD j 0 := by
        rw [List.get_eq_getElem, List.getElem_zip]
        show ix[j] = ix.getD j 0
        rw [List.getD_eq_getElem ix 0 hjx]
      have hstep : segAfter (ix.zip ixc) (segInit ix ixc ncells) (j + 1) c
          = segAfter (ix.zip ixc) (segInit ix ixc ncells) j (ix.getD j 0) := by
        rw [segAfter_succ _ _ hjE]
        unfold segStep
        rw [if_pos (by rw [hsnd]; exact hc0), hsnd, Function.update_same, hgfst]
      have hgpos : 0 < segAfter (ix.zip ixc) (segInit ix ixc ncells) j (ix.getD j 0) := by
        have := seg_pos_at_giver ix ixc ncells hlen htopo hltx j hjE
        rwa [hgfst] at this
      have hgfinal : segAfter (ix.zip ixc) (segInit ix ixc ncells)
            (ix.zip ixc).length (ix.getD j 0)
          = segAfter (ix.zip ixc) (segInit ix ixc ncells) j (ix.getD j 0) :=
        segAfter_mono _ _ _ _ _ (by omega) (Nat.pos_iff_ne_zero.mp hgpos)
      have hcfinal : segAfter (ix.zip ixc) (segInit ix ixc ncells)
            (ix.zip ixc).length c
          = segAfter (ix.zip ixc) (segInit ix ixc ncells) (j + 1) c := by
        refine segAfter_mono _ _ _ _ _ (by omega) ?_
        rw [hstep]
        exact Nat.pos_iff_ne_zero.mp hgpos
      have hgm : incomingMeasure ixc (ix.getD j 0) < fuel := by
        unfold incomingMeasure
        cases hgf : firstIncoming ixc (ix.getD j 0) with
        | none => show 0 < fuel; omega
        | some j2 =>
          show j2 + 1 < fuel
          obtain ⟨hj2, hj2v, _⟩ := firstIncoming_spec hgf
          have hj2j : j2 < j := htopo.pos_lt hlen (by omega) hjx hj2v
          omega
      obtain ⟨ihEq, ihA⟩ := ih (ix.getD j 0) (Or.inl hgmem) hgm
      refine ⟨?_, by rw [hroot]; exact ihA⟩
      have h1 : (ix.zip ixc).foldl segStep (segInit ix ixc ncells) c
          = segAfter (ix.zip ixc) (segInit ix ixc ncells) (j + 1) c := by
        rw [← segAfter_length]
        exact hcfinal
      have h3 : segAfter (ix.zip ixc) (segInit ix ixc ncells) j (ix.getD j 0)
          = (ix.zip ixc).foldl segStep (segInit ix ixc ncells) (ix.getD j 0) := by
        rw [← segAfter_length]
        exact hgfinal.symm
      rw [h1, hstep, h3, ihEq, hroot]

/-- C7: after `get_stream_segments` (with `asgrid=False`; the raster reshape
is presentational), (a) the heads followed by the confluences carry the
consecutive ids 1, 2, … in that enumeration order, (b) every channel cell
ends with a positive id, and (c) two channel cells share an id exactly when
they have the same upstream segment boundary, i.e. lie on the same path
between consecutive head/confluence/outlet boundaries. -/
theorem stream_segments_spec (net : Network)
    (hlen : net._ix.length = net._ixc.length)
    (htopo : topoSorted net._ix net._ixc)
    (hltx : ∀ c ∈ net._ix, c < net._ncells)
    (hltc : ∀ c ∈ net._ixc, c < net._ncells) :
    (∀ k, ∀ hk : k < (headIdxList net._ix net._ixc net._ncells
          ++ confIdxList net._ixc net._ncells).length,
        net.get_stream_segments
            ((headIdxList net._ix net._ixc net._ncells
              ++ confIdxList net._ixc net._ncells).get ⟨k, hk⟩) = k + 1)
    ∧ (∀ c, c ∈ net._ix ∨ c ∈ net._ixc → 0 < net.get_stream_segments c)
    ∧ (∀ c₁ c₂, c₁ ∈ net._ix ∨ c₁ ∈ net._ixc → c₂ ∈ net._ix ∨ c₂ ∈ net._ixc →
        (net.get_stream_segments c₁ = net.get_stream_segments c₂
          ↔ segRoot net._ix net._ixc c₁ = segRoot net._ix net._ixc c₂)) := by
  rw [get_stream_segments_eq]
  have hfin := seg_final_eq_root net._ix net._ixc net._ncells hlen htopo hltx hltc
    (net._ixc.length + 1)
  refine ⟨?_, ?_, ?_⟩
  · intro k hk
    have hbA := List.get_mem (headIdxList net._ix net._ixc net._ncells
      ++ confIdxList net._ixc net._ncells) k hk
    have hmono := segAfter_mono (net._ix.zip net._ixc)
      (segInit net._ix net._ixc net._ncells)
      0 (net._ix.zip net._ixc).length _ (Nat.zero_le _)
      (by rw [segAfter_zero]; exact Nat.pos_iff_ne_zero.mp (segInit_pos_of_mem hbA))
    rw [← segAfter_length, hmono, segAfter_zero, segInit_get]
  · intro c hchan
    obtain ⟨heq, hmem⟩ := hfin c hchan (incomingMeasure_lt _ _)
    rw [heq]
    exact segInit_pos_of_mem hmem
  · intro c₁ c₂ h1 h2
    obtain ⟨heq1, hmem1⟩ := hfin c₁ h1 (incomingMeasure_lt _ _)
    obtain ⟨heq2, hmem2⟩ := hfin c₂ h2 (incomingMeasure_lt _ _)
    unfold segRoot
    rw [heq1, heq2]
    constructor
    · intro hEq
      obtain ⟨⟨k1, hk1⟩, hv1⟩ := List.mem_iff_get.mp hmem1
      obtain ⟨⟨k2, hk2⟩, hv2⟩ := List.mem_iff_get.mp hmem2
      rw [← hv1, ← hv2] at hEq ⊢
      rw [segInit_get, segInit_get] at hEq
      have hk12 : k1 = k2 := by omega
      subst hk12
      rfl
    · intro hEq
      rw [hEq]

/-- Witness for C7 at the concrete two-tributary network: the confluence
cell 5 gets a positive id, and cells 3 and 4 (both interior to the trunk
below the confluence) share an id exactly when they share a boundary. -/
theorem stream_segments_spec_witness :
    (exNet._ix.length = exNet._ixc.length ∧ topoSorted exNet._ix exNet._ixc ∧
      (∀ c ∈ exNet._ix, c < exNet._ncells) ∧ (∀ c ∈ exNet._ixc, c < exNet._ncells)) ∧
    0 < exNet.get_stream_segments 5 ∧
    (exNet.get_stream_segments 3 = exNet.get_stream_segments 4
      ↔ segRoot exNet._ix exNet._ixc 3 = segRoot exNet._ix exNet._ixc 4) :=
  ⟨⟨by decide, by decide, by decide, by decide⟩,
   (stream_segments_spec exNet (by decide) (by decide) (by decide) (by decide)).2.1 5
     (by decide),
   (stream_segments_spec exNet (by decide) (by decide) (by decide) (by decide)).2.2 3 4
     (by decide) (by decide)⟩

/-! ### Channel slope estimation (`calculate_slope`) -/

/-- The auxiliary `ixcix` array: zeros with `ixcix[_ix] = arange(len)`.
Cells that are not givers map to 0, which the traversal guards conflate
with the giver of the edge at position 0. -/
def ixcixOf (ix : List Nat) : Nat → Nat :=
  (List.range ix.length).foldl (fun s n => Function.update s (ix.getD n 0) n)
    (fun _ => 0)

/-- Ordinary least squares slope of `np.polyfit(di, zi, deg=1)`. -/
def polyfitSlope (di zi : List ℚ) : ℚ :=
  let n : ℚ := zi.length
  let Sd := di.sum
  let Sz := zi.sum
  let Sdd := (di.map (fun d => d ^ 2)).sum
  let Sdz := ((di.zip zi).map (fun p => p.1 * p.2)).sum
  (n * Sdz - Sd * Sz) / (n * Sdd - Sd ^ 2)

/-- Residual sum of squares `SCR` returned by `np.polyfit(..., full=True)`. -/
def polyfitSCR (di zi : List ℚ) : ℚ :=
  let a := polyfitSlope di zi
  let n : ℚ := zi.length
  let b := (zi.sum - a * di.sum) / n
  ((di.zip zi).map (fun p => (p.2 - (a * p.1 + b)) ^ 2)).sum

/-- `zi.var()`: population variance of the window elevations. -/
def varQ (zi : List ℚ) : ℚ :=
  let n : ℚ := zi.length
  let mu := zi.sum / n
  (zi.map (fun z => (z - mu) ^ 2)).sum / n

/-- The R² computation of `calculate_slope` (lines 240 and 283):
`R2 = 1 - SCR/(zi.size * zi.var())`, with definedness tracked: `none`
models the undefined float result (0/0 → NaN) that the unguarded division
produces when the window elevations have zero variance. -/
def polyfitR2 (di zi : List ℚ) : Option ℚ :=
  let den := (zi.length : ℚ) * varQ zi
  if den = 0 then none else some (1 - polyfitSCR di zi / den)

/-- The R² value as stored by the traversal; on zero-variance windows the
Python float result is NaN, which has no rational counterpart — the
traversals studied here never produce such windows, and `polyfitR2` is the
definedness-faithful model of the same expression. -/
def r2valOf (di zi : List ℚ) : ℚ :=
  1 - polyfitSCR di zi / ((zi.length : ℚ) * varQ zi)

/-- `self._zx[ixcix[win]]`. -/
def slopeZi (net : Network) (win : List Nat) : List ℚ :=
  win.map (fun c => net._zx.getD (ixcixOf net._ix c) 0)

/-- `self._dx[ixcix[win]]`. -/
def slopeDi (net : Network) (win : List Nat) : List ℚ :=
  win.map (fun c => net._dx.getD (ixcixOf net._ix c) 0)

/-- The per-head traversal state of the `while processing` loop. -/
structure SlopeState where
  slopes : Nat → ℚ
  r2 : Nat → ℚ
  win : List Nat
  mcell : Nat
  processing : Bool

/-- One iteration of the `while processing` loop of `calculate_slope`:
either grow the window downstream (also at the upstream end while shorter
than `2·npoints+1`, else popping the upstream tail), or, when the next
downstream cell has no mapped edge, shrink by two and on reaching length 3
terminate with the sentinel value 0.00001 at the window's downstream end;
then re-fit and store the result at the new middle cell only if that cell's
slope is still zero, otherwise stop. -/
def slopeWhileStep (net : Network) (npoints : Nat) (st : SlopeState) : SlopeState :=
  let ixcix := ixcixOf net._ix
  let winlen := npoints * 2 + 1
  let fcell := st.win.headD 0
  let next_cell := net._ixc.getD (ixcix fcell) 0
  let mcell1 := net._ixc.getD (ixcix st.mcell) 0
  let body : (Nat → ℚ) × (Nat → ℚ) × List Nat × Bool :=
    if ixcix next_cell ≠ 0 then
      let win1 := next_cell :: st.win
      let win2 := if win1.length < winlen
        then net._ixc.getD (ixcix next_cell) 0 :: win1
        else win1.dropLast
      (st.slopes, st.r2, win2, st.processing)
    else
      let win2 := st.win.dropLast.dropLast
      if win2.length = 3 then
        (Function.update st.slopes fcell (1 / 100000),
         Function.update st.r2 fcell (1 / 100000), win2, false)
      else
        (st.slopes, st.r2, win2, st.processing)
  let zi := slopeZi net body.2.2.1
  let di := slopeDi net body.2.2.1
  let slp := polyfitSlope di zi
  let R2v := r2valOf di zi
  if body.1 mcell1 = 0 then
    { slopes := Function.update body.1 mcell1 slp,
      r2 := Function.update body.2.1 mcell1 R2v,
      win := body.2.2.1
      mcell := mcell1
      processing := body.2.2.2 }
  else
    { slopes := body.1, r2 := body.2.1, win := body.2.2.1, mcell := mcell1,
      processing := false }

/-- The `while processing` loop, fuel-bounded (the fuel used below is ample
for every terminating traversal). -/
def slopeWhile (net : Network) (npoints : Nat) : Nat → SlopeState → SlopeState
  | 0, st => st
  | fuel + 1, st =>
    if st.processing then slopeWhile net npoints fuel (slopeWhileStep net npoints st)
    else st

/-- The per-head body of `calculate_slope`: skip heads whose downstream walk
has no three valid cells, otherwise fit the seed window `[fcell, mcell,
head]`, store the result at `mcell` unconditionally, and run the window
loop. -/
def processHead (net : Network) (npoints : Nat) (sr : (Nat → ℚ) × (Nat → ℚ))
    (head : Nat) : (Nat → ℚ) × (Nat → ℚ) :=
  let ixcix := ixcixOf net._ix
  let mcell := net._ixc.getD (ixcix head) 0
  let fcell := net._ixc.getD (ixcix mcell) 0
  if ixcix fcell = 0 ∨ ixcix (net._ixc.getD (ixcix fcell) 0) = 0 then sr
  else
    let win := [fcell, mcell, head]
    let zi := slopeZi net win
    let di := slopeDi net win
    let st : SlopeState :=
      { slopes := Function.update sr.1 mcell (polyfitSlope di zi)
        r2 := Function.update sr.2 mcell (r2valOf di zi)
        win := win
        mcell := mcell
        processing := true }
    let fin := slopeWhile net npoints (net._ix.length * 4 + 4) st
    (fin.slopes, fin.r2)

/-- Insertion into a descending-by-key list (model of `argsort(-elev)`;
ties do not occur in the networks studied here). -/
def insertDescBy (key : Nat → ℚ) (a : Nat) : List Nat → List Nat
  | [] => [a]
  | b :: t => if key b < key a then a :: b :: t else b :: insertDescBy key a t

def sortDescBy (key : Nat → ℚ) : List Nat → List Nat
  | [] => []
  | a :: t => insertDescBy key a (sortDescBy key t)

/-- The heads, sorted by descending elevation (highest processed first). -/
def headsSortedByElev (net : Network) : List Nat :=
  sortDescBy (fun h => net._zx.getD (ixcixOf net._ix h) 0) (poiIND net "heads")

/-- Processing a list of heads in order, starting from all-zero slope and
R² scratch arrays. -/
def slopeFold (net : Network) (npoints : Nat) (heads : List Nat) :
    (Nat → ℚ) × (Nat → ℚ) :=
  heads.foldl (processHead net npoints) (fun _ => 0, fun _ => 0)

/-- `Network.calculate_slope(npoints)`: run every head (highest first) and
read the slopes off at the giver positions (`self._slp = slopes[self._ix]`). -/
def Network.calculate_slope (net : Network) (npoints : Nat) : List ℚ :=
  net._ix.map (slopeFold net npoints (headsSortedByElev net)).1

set_option maxRecDepth 4000 in
/-- C5 counterexample: on the concrete network, head 9 (higher, processed
first) walks the trunk and sets cell 5's slope to the nonzero value 10;
head 10's later traversal then overwrites it with its seed-window fit 7,
because the seed assignment `slopes[mcell] = slp` before the while loop is
not guarded by the already-set check.  This falsifies the claim that a
nonzero slope set by an earlier head's traversal is never overwritten. -/
theorem slope_overwrite_counterexample :
    headsSortedByElev exNet = [9, 10] ∧
    (slopeFold exNet 2 [9]).1 5 = 10 ∧ (10 : ℚ) ≠ 0 ∧
    (slopeFold exNet 2 [9, 10]).1 5 = 7 := by
  refine ⟨by with_unfolding_all decide, by with_unfolding_all decide, by norm_num,
    by with_unfolding_all decide⟩

/-- C5 amended: inside the `while processing` loop (in the grow branch and
in the non-terminal shrink branch — the terminal shrink branch additionally
writes its sentinel), a regression result targeted at a middle cell whose
slope is already nonzero is discarded: the slope and R² arrays are left
unchanged and the traversal terminates. -/
theorem slope_loop_guard_discards (net : Network) (npoints : Nat) (st : SlopeState)
    (hbranch : ixcixOf net._ix
        (net._ixc.getD (ixcixOf net._ix (st.win.headD 0)) 0) ≠ 0
      ∨ (st.win.dropLast.dropLast).length ≠ 3)
    (hset : st.slopes (net._ixc.getD (ixcixOf net._ix st.mcell) 0) ≠ 0) :
    (slopeWhileStep net npoints st).slopes = st.slopes
    ∧ (slopeWhileStep net npoints st).r2 = st.r2
    ∧ (slopeWhileStep net npoints st).processing = false := by
  by_cases hg : ixcixOf net._ix
      (net._ixc.getD (ixcixOf net._ix (st.win.headD 0)) 0) = 0
  · have hG : ¬ (ixcixOf net._ix
        (net._ixc.getD (ixcixOf net._ix (st.win.headD 0)) 0) ≠ 0) := by simpa using hg
    have hlen3 : (st.win.dropLast.dropLast).length ≠ 3 := by
      rcases hbranch with hb | hb
      · exact absurd hg hb
      · exact hb
    simp only [slopeWhileStep]
    rw [if_neg hG, if_neg hlen3]
    dsimp only
    rw [if_neg hset]
    exact ⟨rfl, rfl, rfl⟩
  · simp only [slopeWhileStep]
    rw [if_pos hg]
    dsimp only
    rw [if_neg hset]
    exact ⟨rfl, rfl, rfl⟩

/-- Witness for the amended C5 statement: a mid-trunk state of the concrete
network whose next middle cell (cell 7) already carries slope 14. -/
theorem slope_loop_guard_discards_witness :
    ((ixcixOf exNet._ix
        (exNet._ixc.getD (ixcixOf exNet._ix
          (([7, 8, 9] : List Nat).headD 0)) 0) ≠ 0
      ∨ (([7, 8, 9] : List Nat).dropLast.dropLast).length ≠ 3)
    ∧ Function.update (fun _ => (0 : ℚ)) 7 14
        (exNet._ixc.getD (ixcixOf exNet._ix 8) 0) ≠ 0)
    ∧ ((slopeWhileStep exNet 2
          ⟨Function.update (fun _ => 0) 7 14, fun _ => 0, [7, 8, 9], 8, true⟩).slopes
        = Function.update (fun _ => 0) 7 14
      ∧ (slopeWhileStep exNet 2
          ⟨Function.update (fun _ => 0) 7 14, fun _ => 0, [7, 8, 9], 8, true⟩).r2
        = (fun _ => 0)
      ∧ (slopeWhileStep exNet 2
          ⟨Function.update (fun _ => 0) 7 14, fun _ => 0, [7, 8, 9], 8, true⟩).processing
        = false) :=
  ⟨⟨by decide, by with_unfolding_all decide⟩,
   slope_loop_guard_discards exNet 2
     ⟨Function.update (fun _ => 0) 7 14, fun _ => 0, [7, 8, 9], 8, true⟩
     (by decide) (by with_unfolding_all decide)⟩

/-- C6: the R² division of `calculate_slope` is not guarded: on a flat
window (all elevations equal, zero variance) the expression
`1 - SCR/(zi.size * zi.var())` divides zero by zero and yields an undefined
(NaN) value rather than a defined result. -/
theorem flat_window_r2_undefined : polyfitR2 [0, 1, 2] [5, 5, 5] = none := by
  with_unfolding_all decide
